import Mathlib

/-!
Shallow embedding of the core of `Algorithmic-Composition/pycomposer`
(`rbm_annealing.py` and `noisesampler/bar_noise_sampler.py`).

Conventions of the embedding:
* pandas/numpy floats are modelled by `ℚ`; machine floats carry no claim here
  beyond ordering and field arithmetic on the values that actually occur.
* A missing value (NaN produced by parsing) is modelled by `Option ℚ` in
  `RawRow`; `dropna` keeps the rows in which every column is present.
* Every numpy/pandas operation that can raise is modelled with `Option`
  (`none` = the exception) or `Except PyError`.  In particular
  `np.empty((k, ...))` with `k < 0` raises `ValueError`
  ("negative dimensions are not allowed"), and `min()` of an empty
  selection raises `ValueError`.
* The process-wide random source is passed in as explicit oracle functions
  (one value per draw site and index), the standard way to make the
  randomized code a deterministic function of its inputs.
* External collaborators (the RBM itself, the annealing optimizer, the
  twelve tone generator) live outside the two embedded files; their outputs
  enter as oracle parameters (`pitchf`, `annealLog`), exactly as wide as the
  interface the embedded code consumes.
-/

namespace AccelBrain

/-- Python exception kinds observable from the embedded code. -/
inductive PyError where
  | attributeError
  | valueError
  | indexError
  deriving DecidableEq

deriving instance DecidableEq for Except

/-- Minimum of a list of rationals, `0` on the empty list.  The code only
takes pandas/numpy minima of data it then uses when nonempty; the empty case
is covered separately by `qminOpt`. -/
def qmin : List ℚ → ℚ
  | [] => 0
  | a :: xs => xs.foldl min a

/-- Maximum of a list of rationals, `0` on the empty list. -/
def qmax : List ℚ → ℚ
  | [] => 0
  | a :: xs => xs.foldl max a

/-- Minimum as `Option`: `none` models numpy's `ValueError` on reducing an
empty array with `min()`. -/
def qminOpt : List ℚ → Option ℚ
  | [] => none
  | a :: xs => some (xs.foldl min a)

/-- Maximum of a list of integers, `0` on the empty list (pitch columns the
code reduces are nonempty). -/
def zmax : List ℤ → ℤ
  | [] => 0
  | a :: xs => xs.foldl max a

/-- Minimum of a list of integers, `0` on the empty list. -/
def zmin : List ℤ → ℤ
  | [] => 0
  | a :: xs => xs.foldl min a

/-- Fallible map: `none` as soon as `f` fails on an element.  Used to model
loops whose body can raise. -/
def optMap (f : α → Option β) : List α → Option (List β)
  | [] => some []
  | a :: l =>
    match f a, optMap f l with
    | some b, some bs => some (b :: bs)
    | _, _ => none

/-- Python's `int(x)` on a float: truncation toward zero. -/
def pyInt (q : ℚ) : ℤ := if q < 0 then -((-q).floor) else q.floor

/-- Python list indexing `l[i]` with an integer index: negative indices wrap
once from the end; anything still out of range raises `IndexError` (`none`). -/
def pyListGet (l : List α) (i : ℤ) : Option α :=
  if 0 ≤ i then l[i.toNat]?
  else if -(l.length : ℤ) ≤ i then l[(i + l.length).toNat]?
  else none

/-! ### Rows of the MIDI data frames -/

/-- A row of a raw note table as handed to `__preprocess`; `none` models a
NaN entry, which `dropna` removes. -/
structure RawRow where
  pitch : Option ℚ
  start : Option ℚ
  end_ : Option ℚ
  duration : Option ℚ
  velocity : Option ℚ
  deriving DecidableEq

/-- A fully-present row after `dropna`. -/
structure Row where
  pitch : ℚ
  start : ℚ
  end_ : ℚ
  duration : ℚ
  velocity : ℚ
  deriving DecidableEq

/-- Keep the row only if every column is present. -/
def RawRow.toRow? (r : RawRow) : Option Row :=
  match r.pitch, r.start, r.end_, r.duration, r.velocity with
  | some p, some s, some e, some d, some v => some ⟨p, s, e, d, v⟩
  | _, _, _, _, _ => none

/-- `midi_df.dropna()`: drop every row containing a missing value. -/
def dropna (l : List RawRow) : List Row := l.filterMap RawRow.toRow?

/-- Min-max scaling `(x - m) / (M - m)` of one value.  On a constant column
the code divides by zero: pandas produces NaN there, while `ℚ` division by
zero yields `0`; every theorem about the scaled values assumes a
non-constant column, where the two semantics agree. -/
def scale01 (m M x : ℚ) : ℚ := (x - m) / (M - m)

/-- Column-wise min-max normalization of the five named columns over the
whole table, as in `__preprocess` lines 188-192 of `rbm_annealing.py`
(the `end` column is normalized too even though it is not emitted). -/
def normalizeTable (rows : List Row) : List Row :=
  let pm := qmin (rows.map Row.pitch)
  let pM := qmax (rows.map Row.pitch)
  let sm := qmin (rows.map Row.start)
  let sM := qmax (rows.map Row.start)
  let em := qmin (rows.map Row.end_)
  let eM := qmax (rows.map Row.end_)
  let dm := qmin (rows.map Row.duration)
  let dM := qmax (rows.map Row.duration)
  let vm := qmin (rows.map Row.velocity)
  let vM := qmax (rows.map Row.velocity)
  rows.map fun r =>
    ⟨scale01 pm pM r.pitch, scale01 sm sM r.start, scale01 em eM r.end_,
      scale01 dm dM r.duration, scale01 vm vM r.velocity⟩

/-- The four features `[pitch, start, duration, velocity]` emitted per row. -/
def features (r : Row) : ℚ × ℚ × ℚ × ℚ := (r.pitch, r.start, r.duration, r.velocity)

/-- `RBMAnnealing.__preprocess`: copy, `dropna`, normalize, then build the
sliding windows `observed_arr[i - cycle_len] = rows[i - cycle_len .. i - 1]`.
`np.empty((rows - cycle_len, cycle_len, 4))` raises `ValueError` when
`rows < cycle_len` (negative dimension), modelled by `none`. -/
def preprocess (raw : List RawRow) (cycleLen : ℕ) : Option (List (List (ℚ × ℚ × ℚ × ℚ))) :=
  let rows := normalizeTable (dropna raw)
  if rows.length < cycleLen then none
  else
    some ((List.range (rows.length - cycleLen)).map fun k =>
      ((rows.drop k).take cycleLen).map features)

/-! ### Candidate generation (`RBMAnnealing.__generate`) -/

/-- A row of the learned MIDI table (`self.__midi_df`). -/
structure MidiRow where
  program : ℤ
  pitch : ℤ
  start : ℚ
  end_ : ℚ
  duration : ℚ
  velocity : ℚ
  deriving DecidableEq

/-- A row of a generated candidate table, columns in construction order
`pitch, origin_pitch, start, duration, velocity` with `end` added after the
start shift. -/
structure GenRow where
  pitch : ℤ
  origin_pitch : ℤ
  start : ℚ
  duration : ℚ
  velocity : ℤ
  end_ : ℚ
  deriving DecidableEq

/-- View a generated row as a raw row (no NaN can appear in it). -/
def GenRow.toRaw (r : GenRow) : RawRow :=
  ⟨some (r.pitch : ℚ), some r.start, some r.end_, some r.duration, some (r.velocity : ℚ)⟩

/-- View a learned-table row as a raw row for `__preprocess`. -/
def MidiRow.toRaw (r : MidiRow) : RawRow :=
  ⟨some (r.pitch : ℚ), some r.start, some r.end_, some r.duration, some r.velocity⟩

/-- Add the `i`-th jitter draw to the `i`-th element (`arr += np.random.normal(...)`),
indices starting at `i0`. -/
def addIdx (f : ℕ → ℚ) : ℕ → List ℚ → List ℚ
  | _, [] => []
  | i, x :: xs => (x + f i) :: addIdx f (i + 1) xs

/-- Element-wise jitter of a column. -/
def jitter (f : ℕ → ℚ) (l : List ℚ) : List ℚ := addIdx f 0 l

/-- `duration_arr[duration_arr < 0] = duration_arr[duration_arr > 0].min()`:
the minimum of the strictly positive entries (computed first — numpy raises
`ValueError` when that selection is empty, modelled by `none`) replaces
every strictly negative entry.  Entries equal to `0` are left as they are. -/
def clampDurations (l : List ℚ) : Option (List ℚ) :=
  match qminOpt (l.filter fun x => decide (0 < x)) with
  | none => none
  | some m => some (l.map fun x => if x < 0 then m else x)

/-- Zip the four generated columns into data-frame rows (`np.c_[...]`);
the `end` column does not exist yet and is initialized to `0` before being
overwritten. -/
def buildRows : List ℤ → List ℚ → List ℚ → List ℤ → List GenRow
  | p :: ps, s :: ss, d :: ds, v :: vs => ⟨p, p, s, d, v, 0⟩ :: buildRows ps ss ds vs
  | _, _, _, _ => []

/-- Sort key of `sort_values(by=["start", "end"])`: lexicographic on
`(start, end)`. -/
def genKeyLe (a b : GenRow) : Prop :=
  a.start < b.start ∨ (a.start = b.start ∧ a.end_ ≤ b.end_)

instance : DecidableRel genKeyLe := fun a b => by
  unfold genKeyLe
  infer_instance

/-- Stable insertion of a row into a sorted list. -/
def insertSorted (a : GenRow) : List GenRow → List GenRow
  | [] => [a]
  | b :: l => if genKeyLe a b then a :: b :: l else b :: insertSorted a l

/-- Stable sort by `(start, end)`, modelling `sort_values` (pandas uses a
stable lexsort for a multi-column key). -/
def sortRows : List GenRow → List GenRow
  | [] => []
  | a :: l => insertSorted a (sortRows l)

/-- In-place effect of `__generate` on the reference table: the `start`
column gains the jitter (the numpy view written by `start_arr += ...` is the
data frame's own buffer) and the `duration` column becomes the clamped
jittered array.  All the other columns are untouched. -/
def mutateRefAux (nS : ℕ → ℚ) : ℕ → List MidiRow → List ℚ → List MidiRow
  | _, [], _ => []
  | i, r :: rs, d =>
    { r with start := r.start + nS i, duration := d.headD 0 } :: mutateRefAux nS (i + 1) rs d.tail

/-- The reference table as it is left behind by one `__generate` call. -/
def mutateRef (midi : List MidiRow) (nS : ℕ → ℚ) (d : List ℚ) : List MidiRow :=
  mutateRefAux nS 0 midi d

/-- `RBMAnnealing.__generate`: jitter starts and durations (in place on the
reference table), clamp the strictly negative durations, draw velocities and
twelve-tone pitches through oracles, assemble the data frame, shift the
starts so their minimum is `0`, recompute `end`, reduce `pitch` mod 12 and
sort by `(start, end)`.  The final `dropna()` is the identity here because
no oracle input is NaN.  Returns the candidate together with the mutated
reference table, or `none` when the clamp raises. -/
def generate (midi : List MidiRow) (noiseS noiseD velf : ℕ → ℚ) (pitchf : ℤ → ℕ → ℤ)
    (octave : ℤ) : Option (List GenRow × List MidiRow) :=
  let n := midi.length
  let startArr := jitter noiseS (midi.map MidiRow.start)
  let durArr := jitter noiseD (midi.map MidiRow.duration)
  match clampDurations durArr with
  | none => none
  | some durArr2 =>
    let velArr := (List.range n).map fun i => pyInt (velf i)
    let pitchArr := (List.range n).map fun i => pitchf octave i
    let rows0 := buildRows pitchArr startArr durArr2 velArr
    let minS := qmin (rows0.map GenRow.start)
    let rows1 := rows0.map fun r => { r with start := r.start + minS * (-1) }
    let rows2 := rows1.map fun r => { r with end_ := r.start + r.duration }
    let rows3 := rows2.map fun r => { r with pitch := r.pitch % 12 }
    some (sortRows rows3, mutateRef midi noiseS durArr2)

/-! ### The composer state machine (`RBMAnnealing`) -/

/-- Constructor parameters of `RBMAnnealing.__init__`. -/
structure ComposerConfig where
  cycle_len : ℕ
  epoch : ℕ
  batch_size : ℕ
  learning_rate : ℚ
  hidden_num : ℕ
  annealing_cycles : ℕ
  deriving DecidableEq

/-- The attributes that `learn` assigns (`__max_pitch`, `__min_pitch`,
`__observed_shape`, `__midi_df`; the RBM object and the inferenced array are
consumed only by the external cost function and are not observable here). -/
structure Learned where
  max_pitch : ℤ
  min_pitch : ℤ
  observed0 : ℕ
  midi : List MidiRow
  deriving DecidableEq

/-- Composer state: configuration plus the optional learning artifacts.
`learned = none` models the fresh object on which the name-mangled
attributes are not yet set, so reading them raises `AttributeError`. -/
structure RBMAnnealing where
  cfg : ComposerConfig
  learned : Option Learned
  deriving DecidableEq

/-- `RBMAnnealing.__init__`: stores the configuration only. -/
def RBMAnnealing.init (cfg : ComposerConfig) : RBMAnnealing := ⟨cfg, none⟩

/-- `RBMAnnealing.learn`: record the pre-modulo pitch extrema, replace the
pitch column of the caller's table by `pitch % 12` in place, build the
observed windows (raising like `__preprocess` when the table is too short),
train and infer through the external RBM (not observable here), and store
the artifacts.  Returns the new state together with the caller's table as
`learn` leaves it. -/
def RBMAnnealing.learn (m : RBMAnnealing) (df : List MidiRow) :
    Except PyError (RBMAnnealing × List MidiRow) :=
  let maxP := zmax (df.map MidiRow.pitch)
  let minP := zmin (df.map MidiRow.pitch)
  let df2 := df.map fun r => { r with pitch := r.pitch % 12 }
  match preprocess (df2.map MidiRow.toRaw) m.cfg.cycle_len with
  | none => Except.error PyError.valueError
  | some obs => Except.ok ({ m with learned := some ⟨maxP, minP, obs.length, df2⟩ }, df2)

/-- One iteration body of the `compose` cycle loop after the candidate is
generated: `__preprocess` the candidate (its `ValueError` propagates out of
the loop), then either truncate the windows to the reference count, fill the
parameter slot, or `continue` leaving the slot unfilled (`none`). -/
def composeCycleBody (shape0 cycleLen : ℕ) (cand : List GenRow) :
    Except PyError (Option (List (List (ℚ × ℚ × ℚ × ℚ)))) :=
  match preprocess (cand.map GenRow.toRaw) cycleLen with
  | none => Except.error PyError.valueError
  | some t =>
    if shape0 < t.length then Except.ok (some (t.take shape0))
    else if t.length < shape0 then Except.ok none
    else Except.ok (some t)

/-- The `for i in range(annealing_cycles)` loop of `compose`: generate a
candidate from the current (mutated!) reference table, run the cycle body,
and collect the candidates in order.  Any raise aborts the whole loop. -/
def composeLoop (shape0 cycleLen : ℕ) (noiseSf noiseDf velff : ℕ → ℕ → ℚ)
    (pitchf : ℤ → ℕ → ℤ) (octave : ℤ) :
    List ℕ → List MidiRow → Except PyError (List MidiRow × List (List GenRow))
  | [], midi => Except.ok (midi, [])
  | i :: rest, midi =>
    match generate midi (noiseSf i) (noiseDf i) (velff i) pitchf octave with
    | none => Except.error PyError.valueError
    | some (cand, midi2) =>
      match composeCycleBody shape0 cycleLen cand with
      | Except.error e => Except.error e
      | Except.ok _ =>
        match composeLoop shape0 cycleLen noiseSf noiseDf velff pitchf octave rest midi2 with
        | Except.error e => Except.error e
        | Except.ok (midiF, cands) => Except.ok (midiF, cand :: cands)

/-- A row of the composed output after the pitch swap at the end of
`compose`: `feature_pitch` receives the scoring (mod-12) pitch and `pitch`
the `origin_pitch` recorded at generation time. -/
structure OptRow where
  pitch : ℤ
  origin_pitch : ℤ
  feature_pitch : ℤ
  start : ℚ
  duration : ℚ
  velocity : ℤ
  end_ : ℚ
  deriving DecidableEq

/-- Lines 176-177 of `rbm_annealing.py`:
`opt_df["feature_pitch"] = opt_df["pitch"]; opt_df["pitch"] = opt_df["origin_pitch"]`. -/
def pitchSwap (t : List GenRow) : List OptRow :=
  t.map fun r => ⟨r.origin_pitch, r.origin_pitch, r.pitch, r.start, r.duration, r.velocity, r.end_⟩

/-- Column 5 (0-indexed) of one predicted-log record: the score. -/
def recScore (r : List ℚ) : ℚ := r.getD 5 0

/-- Column 4 of one predicted-log record: the candidate index. -/
def recIndex (r : List ℚ) : ℚ := r.getD 4 0

/-- `predicted_log_arr[:, 5].min()`. -/
def minScore (log : List (List ℚ)) : ℚ := qmin (log.map recScore)

/-- Lines 170-174 of `rbm_annealing.py`: keep the records whose score equals
the global minimum, take the first of them, read its column 4 and use it as
a Python list index into the candidate list.  An empty log raises
`ValueError` inside numpy's `min`; an out-of-range candidate index raises
`IndexError`. -/
def selectOptimum (cands : List (List GenRow)) (log : List (List ℚ)) :
    Except PyError (List GenRow) :=
  match (log.filter fun r => decide (recScore r = minScore log)).head? with
  | none => Except.error PyError.valueError
  | some r =>
    match pyListGet cands (pyInt (recIndex r)) with
    | none => Except.error PyError.indexError
    | some t => Except.ok t

/-- `RBMAnnealing.compose`: the first statement reads `self.__inferenced_arr`
(line 139), which raises `AttributeError` on an object that has not learned;
otherwise run the annealing-cycle loop, hand the parameter tensor to the
external annealing model (whose resulting `predicted_log_arr` enters as the
oracle `annealLog`), select the best candidate and swap its pitch columns. -/
def RBMAnnealing.compose (m : RBMAnnealing) (noiseSf noiseDf velff : ℕ → ℕ → ℚ)
    (pitchf : ℤ → ℕ → ℤ) (annealLog : List (List ℚ)) (octave : ℤ) :
    Except PyError (List OptRow) :=
  match m.learned with
  | none => Except.error PyError.attributeError
  | some art =>
    match composeLoop art.observed0 m.cfg.cycle_len noiseSf noiseDf velff pitchf octave
        (List.range m.cfg.annealing_cycles) art.midi with
    | Except.error e => Except.error e
    | Except.ok (_, cands) =>
      match selectOptimum cands annealLog with
      | Except.error e => Except.error e
      | Except.ok opt => Except.ok (pitchSwap opt)

/-! ### The bar noise sampler (`BarNoiseSampler`) -/

/-- A note as consumed by the sampler: `program`, `pitch`, `start`, `end`. -/
structure BarNote where
  program : ℤ
  pitch : ℤ
  start : ℚ
  end_ : ℚ
  deriving DecidableEq

/-- Constructor state of `BarNoiseSampler`. -/
structure BarNoiseSampler where
  tables : List (List BarNote)
  batch_size : ℕ
  seq_len : ℕ
  time_fraction : ℚ
  min_pitch : ℤ
  max_pitch : ℤ
  deriving DecidableEq

/-- `program_list`: per-table `drop_duplicates`, concatenated, then made a
set.  (`list(set(...))` enumerates in an unspecified order; `dedup` fixes
one order, which no claim depends on — only membership and cardinality.) -/
def BarNoiseSampler.programList (s : BarNoiseSampler) : List ℤ :=
  ((s.tables.map fun t => (t.map BarNote.program).dedup).flatten).dedup

/-- `self.__channel = len(program_list)`. -/
def BarNoiseSampler.channel (s : BarNoiseSampler) : ℕ := s.programList.length

/-- `self.__dim = max_pitch - min_pitch` (as a numpy shape, i.e. clipped at
`0` would raise earlier; the subtraction is nonnegative for every sampler
the constructor defaults describe). -/
def BarNoiseSampler.dim (s : BarNoiseSampler) : ℕ := (s.max_pitch - s.min_pitch).toNat

/-- numpy `arr[idx] = v` on a one-dimensional array: a negative index wraps
once from the end; an index out of `[-len, len)` raises `IndexError`. -/
def npSet (arr : List ℚ) (idx : ℤ) (v : ℚ) : Option (List ℚ) :=
  if idx < -(arr.length : ℤ) then none
  else if idx < 0 then some (arr.set (idx + arr.length).toNat v)
  else if idx < (arr.length : ℤ) then some (arr.set idx.toNat v)
  else none

/-- The loop of `__convert_into_feature`: for every note of the sliced frame
whose pitch is strictly below `max_pitch - 1`, set the bit at
`pitch - min_pitch`. -/
def setBits (minP maxP : ℤ) : List BarNote → List ℚ → Option (List ℚ)
  | [], arr => some arr
  | n :: ns, arr =>
    if n.pitch < maxP - 1 then
      match npSet arr (n.pitch - minP) 1 with
      | none => none
      | some arr2 => setBits minP maxP ns arr2
    else setBits minP maxP ns arr

/-- `BarNoiseSampler.__convert_into_feature` on an already-sliced frame. -/
def convertIntoFeature (s : BarNoiseSampler) (df : List BarNote) : Option (List ℚ) :=
  setBits s.min_pitch s.max_pitch df (List.replicate s.dim 0)

/-- The per-(batch, channel) source selection of `generate`: the uniformly
drawn table (`keyf` is the oracle for `np.random.randint`) filtered to the
channel's program. -/
def selTable (s : BarNoiseSampler) (keyf : ℕ → ℕ → ℕ) (batch i : ℕ) : List BarNote :=
  (s.tables.getD (keyf batch i) []).filter fun n => decide (n.program = s.programList.getD i 0)

/-- Body of the `for seq in range(self.__seq_len)` loop: slice the notes with
`start < row + seq*time_fraction` and `end > row + (seq+1)*time_fraction`
and convert the slice into the multi-hot pitch feature. -/
def genSeqSlot (s : BarNoiseSampler) (tbl : List BarNote) (row : ℚ) (seq : ℕ) :
    Option (List ℚ) :=
  convertIntoFeature s
    ((tbl.filter fun n => decide (n.start < row + (seq : ℚ) * s.time_fraction)).filter
      fun n => decide (n.end_ > row + ((seq : ℚ) + 1) * s.time_fraction))

/-- Body of the `for i in range(len(self.__program_list))` loop: the channel
stays all-zero when the selected table has fewer than `seq_len` rows,
otherwise each `seq` slot is filled from the random offset `row`. -/
def genChannel (s : BarNoiseSampler) (keyf : ℕ → ℕ → ℕ) (rowf : ℕ → ℕ → ℚ) (batch i : ℕ) :
    Option (List (List ℚ)) :=
  if (selTable s keyf batch i).length < s.seq_len then
    some (List.replicate s.seq_len (List.replicate s.dim 0))
  else
    optMap (genSeqSlot s (selTable s keyf batch i) (rowf batch i)) (List.range s.seq_len)

/-- Body of the `for batch in range(self.__batch_size)` loop. -/
def genBatch (s : BarNoiseSampler) (keyf : ℕ → ℕ → ℕ) (rowf : ℕ → ℕ → ℚ) (batch : ℕ) :
    Option (List (List (List ℚ))) :=
  optMap (genChannel s keyf rowf batch) (List.range s.programList.length)

/-- `BarNoiseSampler.generate`: start from the all-zero tensor
`(batch_size, channel, seq_len, dim)`; per batch and channel pick a table
uniformly at random (`keyf` is the oracle for `np.random.randint`), filter to
the channel's program, leave the channel all-zero when fewer than `seq_len`
rows remain, otherwise draw the offset `row` (`rowf` is the oracle for
`np.random.uniform`) and fill the `seq_len` slots. -/
def BarNoiseSampler.generate (s : BarNoiseSampler) (keyf : ℕ → ℕ → ℕ) (rowf : ℕ → ℕ → ℚ) :
    Option (List (List (List (List ℚ)))) :=
  optMap (genBatch s keyf rowf) (List.range s.batch_size)

/-! ### A non-constant column, as assumed by the normalization theorems -/

/-- A column is non-constant when it holds two different values; exactly then
the min-max denominator of `__preprocess` is nonzero. -/
def colNonConst (l : List ℚ) : Prop := ∃ a ∈ l, ∃ b ∈ l, a ≠ b

instance (l : List ℚ) : Decidable (colNonConst l) :=
  decidable_of_iff (∃ a ∈ l, ∃ b ∈ l, a ≠ b) Iff.rfl

/-! ### Concrete instances used by the per-claim witnesses and counterexamples -/

/-- Reference table witnessing the in-place mutation performed by `__generate`. -/
def midiC3 : List MidiRow := [⟨0, 60, 0, 1, 1, 100⟩]

/-- The same table as `__generate` leaves it behind: `start` has absorbed the
jitter draw `1`. -/
def midiC3out : List MidiRow := [⟨0, 60, 1, 1, 1, 100⟩]

/-- Candidate produced from `midiC3` with jitter `1` on starts and `0` elsewhere. -/
def candC3 : List GenRow := [⟨0, 60, 0, 1, 0, 1⟩]

/-- Two-row reference table for the duration-clamp analysis. -/
def midiC4 : List MidiRow := [⟨0, 60, 0, 1, 1, 100⟩, ⟨0, 62, 1, 2, 1, 90⟩]

/-- Candidate generated from `midiC4` with all-zero oracles. -/
def candC4 : List GenRow := [⟨0, 60, 0, 1, 0, 1⟩, ⟨0, 60, 1, 1, 0, 2⟩]

/-- Duration jitter sending the first duration to exactly `0`. -/
def nDC4 : ℕ → ℚ := fun i => if i = 0 then -1 else 1

/-- Zero oracle for rows. -/
def zRow : ℕ → ℚ := fun _ => 0

/-- Constant pitch oracle. -/
def pConst : ℤ → ℕ → ℤ := fun _ _ => 60

/-- Raw table with two complete rows and all four feature columns non-constant. -/
def rawC5 : List RawRow :=
  [⟨some 1, some 0, some 1, some 1, some 5⟩, ⟨some 2, some 1, some 2, some 2, some 6⟩]

/-- Raw table with two complete rows, shorter than the window length 3. -/
def rawC7 : List RawRow :=
  [⟨some 1, some 0, some 1, some 1, some 5⟩, ⟨some 2, some 1, some 2, some 6, some 7⟩]

/-- Configuration with `cycle_len = 1` and a single annealing cycle. -/
def cfgC1 : ComposerConfig := ⟨1, 100, 10, 1/100000, 100, 1⟩

/-- Learning artifacts as `learn` stores them for the two-row table below. -/
def artC1 : Learned := ⟨62, 60, 1, [⟨0, 0, 0, 1, 1, 100⟩, ⟨0, 2, 1, 2, 1, 90⟩]⟩

/-- A trained composer. -/
def mC1 : RBMAnnealing := ⟨cfgC1, some artC1⟩

/-- Zero jitter/velocity oracle, two-argument form (cycle, row index). -/
def zCycle : ℕ → ℕ → ℚ := fun _ _ => 0

/-- A predicted log with two records: scores 2 and 5 in column 5, candidate
index 0 in column 4. -/
def logC1 : List (List ℚ) := [[0, 0, 0, 0, 0, 2], [0, 0, 0, 0, 0, 5]]

/-- The composition `compose` returns on `mC1` with the oracles above. -/
def outC1 : List OptRow := [⟨60, 60, 0, 0, 1, 0, 1⟩, ⟨60, 60, 0, 1, 1, 0, 2⟩]

/-- Configuration and table for the `learn` frame-effect witness. -/
def cfgC10 : ComposerConfig := ⟨1, 100, 10, 1/100000, 100, 1⟩

/-- Input table of the `learn` witness. -/
def midiC10 : List MidiRow := [⟨0, 60, 0, 1, 1, 100⟩, ⟨0, 62, 1, 2, 1, 90⟩]

/-- Composer state after learning `midiC10`. -/
def mC10 : RBMAnnealing := ⟨cfgC10, some ⟨62, 60, 1, [⟨0, 0, 0, 1, 1, 100⟩, ⟨0, 2, 1, 2, 1, 90⟩]⟩⟩

/-- The caller's table after `learn`: pitch reduced mod 12, all else intact. -/
def midiC10out : List MidiRow := [⟨0, 0, 0, 1, 1, 100⟩, ⟨0, 2, 1, 2, 1, 90⟩]

/-- One-note sampler: program 0, pitch 30, interval `[0, 10)`, defaults
`min_pitch = 24`, `max_pitch = 108`, one batch, one bar of width `1/10`. -/
def sC2 : BarNoiseSampler := ⟨[[⟨0, 30, 0, 10⟩]], 1, 1, 1/10, 24, 108⟩

/-- Table-choice oracle hitting the only table. -/
def kfC2 : ℕ → ℕ → ℕ := fun _ _ => 0

/-- Offset oracle placing the bar at `[5, 5.1)`. -/
def rfC2 : ℕ → ℕ → ℚ := fun _ _ => 5

/-- One-note sampler with a narrow pitch range (`dim = 3`) for the shape
witness. -/
def sC9 : BarNoiseSampler := ⟨[[⟨0, 25, 0, 10⟩]], 1, 1, 1/10, 24, 27⟩

/-! ## Helper lemmas -/

theorem foldl_min_le_init (l : List ℚ) (a : ℚ) : l.foldl min a ≤ a := by
  induction l generalizing a with
  | nil => exact le_refl a
  | cons x xs ih => exact le_trans (ih (min a x)) (min_le_left a x)

theorem foldl_min_le_mem (l : List ℚ) (a x : ℚ) (hx : x ∈ l) : l.foldl min a ≤ x := by
  induction l generalizing a with
  | nil => cases hx
  | cons y ys ih =>
    rcases List.mem_cons.mp hx with h | h
    · subst h
      exact le_trans (foldl_min_le_init ys (min a x)) (min_le_right a x)
    · exact ih (min a y) h

theorem init_le_foldl_max (l : List ℚ) (a : ℚ) : a ≤ l.foldl max a := by
  induction l generalizing a with
  | nil => exact le_refl a
  | cons x xs ih => exact le_trans (le_max_left a x) (ih (max a x))

theorem mem_le_foldl_max (l : List ℚ) (a x : ℚ) (hx : x ∈ l) : x ≤ l.foldl max a := by
  induction l generalizing a with
  | nil => cases hx
  | cons y ys ih =>
    rcases List.mem_cons.mp hx with h | h
    · subst h
      exact le_trans (le_max_right a x) (init_le_foldl_max ys (max a x))
    · exact ih (max a y) h

theorem qmin_le (l : List ℚ) (x : ℚ) (hx : x ∈ l) : qmin l ≤ x := by
  cases l with
  | nil => cases hx
  | cons a xs =>
    rcases List.mem_cons.mp hx with h | h
    · subst h; exact foldl_min_le_init xs x
    · exact foldl_min_le_mem xs a x h

theorem le_qmax (l : List ℚ) (x : ℚ) (hx : x ∈ l) : x ≤ qmax l := by
  cases l with
  | nil => cases hx
  | cons a xs =>
    rcases List.mem_cons.mp hx with h | h
    · subst h; exact init_le_foldl_max xs x
    · exact mem_le_foldl_max xs a x h

theorem qmin_lt_qmax (l : List ℚ) (a b : ℚ) (ha : a ∈ l) (hb : b ∈ l) (hab : a ≠ b) :
    qmin l < qmax l := by
  rcases lt_or_gt_of_ne hab with h | h
  · exact lt_of_le_of_lt (qmin_le l a ha) (lt_of_lt_of_le h (le_qmax l b hb))
  · exact lt_of_le_of_lt (qmin_le l b hb) (lt_of_lt_of_le h (le_qmax l a ha))

theorem foldl_min_pos (l : List ℚ) (a : ℚ) (ha : 0 < a) (hl : ∀ x ∈ l, 0 < x) :
    0 < l.foldl min a := by
  induction l generalizing a with
  | nil => exact ha
  | cons x xs ih =>
    exact ih (min a x) (lt_min ha (hl x (List.mem_cons_self x xs)))
      fun y hy => hl y (List.mem_cons_of_mem x hy)

theorem qminOpt_pos (l : List ℚ) (m : ℚ) (h : qminOpt l = some m) (hl : ∀ x ∈ l, 0 < x) :
    0 < m := by
  cases l with
  | nil => cases h
  | cons a xs =>
    injection h with h
    subst h
    exact foldl_min_pos xs a (hl a (List.mem_cons_self a xs))
      fun y hy => hl y (List.mem_cons_of_mem a hy)

theorem scale01_bounds (l : List ℚ) (x a b : ℚ) (hx : x ∈ l) (ha : a ∈ l) (hb : b ∈ l)
    (hab : a ≠ b) : 0 ≤ scale01 (qmin l) (qmax l) x ∧ scale01 (qmin l) (qmax l) x ≤ 1 := by
  have hlt := qmin_lt_qmax l a b ha hb hab
  have h1 := qmin_le l x hx
  have h2 := le_qmax l x hx
  unfold scale01
  constructor
  · exact div_nonneg (by linarith) (by linarith)
  · rw [div_le_one (by linarith)]
    linarith

theorem optMap_length (f : α → Option β) (l : List α) (res : List β)
    (h : optMap f l = some res) : res.length = l.length := by
  induction l generalizing res with
  | nil =>
    simp only [optMap] at h
    injection h with h
    subst h
    rfl
  | cons a t ih =>
    simp only [optMap] at h
    cases hfa : f a with
    | none => rw [hfa] at h; cases h
    | some b =>
      rw [hfa] at h
      cases hrest : optMap f t with
      | none => rw [hrest] at h; cases h
      | some bs =>
        rw [hrest] at h
        injection h with h
        subst h
        simp [ih bs hrest]

theorem optMap_getD (f : α → Option β) (l : List α) (res : List β)
    (h : optMap f l = some res) (d : α) (d2 : β) :
    ∀ k, k < l.length → f (l.getD k d) = some (res.getD k d2) := by
  induction l generalizing res with
  | nil => intro k hk; cases hk
  | cons a t ih =>
    simp only [optMap] at h
    cases hfa : f a with
    | none => rw [hfa] at h; cases h
    | some b =>
      rw [hfa] at h
      cases hrest : optMap f t with
      | none => rw [hrest] at h; cases h
      | some bs =>
        rw [hrest] at h
        injection h with h
        subst h
        intro k hk
        cases k with
        | zero => simpa using hfa
        | succ k2 =>
          simp only [List.getD_cons_succ]
          exact ih bs hrest k2 (by simpa using hk)

theorem optMap_mem (f : α → Option β) (l : List α) (res : List β)
    (h : optMap f l = some res) : ∀ b ∈ res, ∃ a ∈ l, f a = some b := by
  induction l generalizing res with
  | nil =>
    simp only [optMap] at h
    injection h with h
    subst h
    intro b hb
    cases hb
  | cons a t ih =>
    simp only [optMap] at h
    cases hfa : f a with
    | none => rw [hfa] at h; cases h
    | some b =>
      rw [hfa] at h
      cases hrest : optMap f t with
      | none => rw [hrest] at h; cases h
      | some bs =>
        rw [hrest] at h
        injection h with h
        subst h
        intro c hc
        rcases List.mem_cons.mp hc with hcb | hcb
        · exact ⟨a, List.mem_cons_self a t, by rw [hfa, hcb]⟩
        · obtain ⟨x, hx, hfx⟩ := ih bs hrest c hcb
          exact ⟨x, List.mem_cons_of_mem a hx, hfx⟩

theorem head?_filter_spec (p : α → Bool) (d : α) (l : List α) (r : α)
    (h : (l.filter p).head? = some r) :
    ∃ j, j < l.length ∧ l.getD j d = r ∧ p r = true ∧
      ∀ k, k < j → p (l.getD k d) = false := by
  induction l with
  | nil => cases h
  | cons a t ih =>
    by_cases hpa : p a
    · rw [List.filter_cons_of_pos hpa] at h
      injection h with h
      subst h
      exact ⟨0, by simp, rfl, hpa, fun k hk => absurd hk (Nat.not_lt_zero k)⟩
    · rw [List.filter_cons_of_neg (by simpa using hpa)] at h
      obtain ⟨j, hj, hget, hpr, hbefore⟩ := ih h
      refine ⟨j + 1, by simpa using hj, by simpa using hget, hpr, ?_⟩
      intro k hk
      cases k with
      | zero => simpa using hpa
      | succ k2 =>
        simp only [List.getD_cons_succ]
        exact hbefore k2 (by omega)

theorem getD_mem (l : List α) (d : α) (k : ℕ) (hk : k < l.length) : l.getD k d ∈ l := by
  rw [List.getD_eq_getElem l d hk]
  exact List.getElem_mem hk

theorem range_getD (n k : ℕ) (d : ℕ) (hk : k < n) : (List.range n).getD k d = k := by
  rw [List.getD_eq_getElem _ _ (by simpa using hk)]
  exact List.getElem_range k _

/-! ## C6 — a zero-row candidate crashes the cycle loop -/

/-- C6: the claim says a candidate with zero usable rows after jitter/dropna
must not crash the `compose` cycle loop.  The code disagrees: the cycle body
hands the empty candidate to `__preprocess`, which evaluates
`np.empty((0 - cycle_len, cycle_len, 4))` and raises
`ValueError: negative dimensions are not allowed` before the skip test is
reached, so the loop aborts (here: the default `cycle_len = 12` and reference
window count 8). -/
theorem composeCycleBody_zero_rows_raises :
    composeCycleBody 8 12 [] = Except.error PyError.valueError := rfl

/-! ## C7 — preprocessor on a table with rows ≤ cycle_len -/

/-- C7 (amended): with exactly `cycle_len` usable rows the preprocessor does
return an empty window list; the `rows < cycle_len` half of the claim is
refuted by `preprocess_short_table_raises`. -/
theorem preprocess_rows_eq_cycle_len_empty (raw : List RawRow) :
    preprocess raw (dropna raw).length = some [] := by
  have hlen : (normalizeTable (dropna raw)).length = (dropna raw).length := by
    simp [normalizeTable]
  simp [preprocess, hlen]

/-- C7 counterexample: on a two-row table with window length 3 the code does
not return an empty result — `np.empty((2 - 3, 3, 4))` raises `ValueError`
(modelled by `none`). -/
theorem preprocess_short_table_raises :
    preprocess rawC7 3 = none ∧ (dropna rawC7).length ≤ 3 ∧
      preprocess rawC7 3 ≠ some [] := ⟨rfl, by decide, by decide⟩

/-! ## C8 — compose before learn -/

/-- C8: on a freshly constructed composer (no successful `learn`), `compose`
fails on its first statement — reading the unset `self.__inferenced_arr`
raises `AttributeError`, the concrete form of the Invalid-State error — and
no composition is produced. -/
theorem compose_untrained_fails (cfg : ComposerConfig) (noiseSf noiseDf velff : ℕ → ℕ → ℚ)
    (pitchf : ℤ → ℕ → ℤ) (annealLog : List (List ℚ)) (octave : ℤ) :
    (RBMAnnealing.init cfg).compose noiseSf noiseDf velff pitchf annealLog octave =
      Except.error PyError.attributeError := rfl

/-! ## C10 — learn mutates the caller's table in place -/

/-- C10: a successful `learn` leaves the caller's table with its pitch column
replaced by `pitch % 12` and every other column untouched, and the original
pitch values survive only as the stored table-wide max and min. -/
theorem learn_mutates_pitch_mod12 (m m2 : RBMAnnealing) (df df2 : List MidiRow)
    (hok : m.learn df = Except.ok (m2, df2)) :
    df2 = df.map (fun r => { r with pitch := r.pitch % 12 }) ∧
    ∃ art, m2.learned = some art ∧
      art.max_pitch = zmax (df.map MidiRow.pitch) ∧
      art.min_pitch = zmin (df.map MidiRow.pitch) ∧
      art.midi = df2 := by
  simp only [RBMAnnealing.learn] at hok
  cases hp : preprocess ((df.map fun r => { r with pitch := r.pitch % 12 }).map MidiRow.toRaw)
      m.cfg.cycle_len with
  | none => rw [hp] at hok; cases hok
  | some obs =>
    rw [hp] at hok
    simp only [Except.ok.injEq, Prod.mk.injEq] at hok
    obtain ⟨h1, h2⟩ := hok
    subst h2
    refine ⟨rfl, ⟨zmax (df.map MidiRow.pitch), zmin (df.map MidiRow.pitch), obs.length,
      df.map fun r => { r with pitch := r.pitch % 12 }⟩, ?_, rfl, rfl, rfl⟩
    rw [← h1]

/-- C10 witness: `learn` on a concrete two-row table, applied through
`learn_mutates_pitch_mod12`. -/
theorem learn_mutates_pitch_mod12_witness :
    midiC10out = midiC10.map (fun r => { r with pitch := r.pitch % 12 }) ∧
    ∃ art, mC10.learned = some art ∧
      art.max_pitch = zmax (midiC10.map MidiRow.pitch) ∧
      art.min_pitch = zmin (midiC10.map MidiRow.pitch) ∧
      art.midi = midiC10out :=
  learn_mutates_pitch_mod12 (RBMAnnealing.init cfgC10) mC10 midiC10 midiC10out rfl

/-! ## Length and column lemmas for `__generate` -/

theorem addIdx_length (f : ℕ → ℚ) (i : ℕ) (l : List ℚ) : (addIdx f i l).length = l.length := by
  induction l generalizing i with
  | nil => rfl
  | cons x xs ih => simp [addIdx, ih]

theorem clampDurations_length (l l2 : List ℚ) (h : clampDurations l = some l2) :
    l2.length = l.length := by
  unfold clampDurations at h
  cases hm : qminOpt (l.filter fun x => decide (0 < x)) with
  | none => rw [hm] at h; cases h
  | some m =>
    rw [hm] at h
    injection h with h
    subst h
    simp

theorem clampDurations_nonneg (l l2 : List ℚ) (h : clampDurations l = some l2) :
    ∀ x ∈ l2, 0 ≤ x := by
  unfold clampDurations at h
  cases hm : qminOpt (l.filter fun x => decide (0 < x)) with
  | none => rw [hm] at h; cases h
  | some m =>
    rw [hm] at h
    injection h with h
    subst h
    have hmpos : 0 < m := by
      refine qminOpt_pos _ m hm ?_
      intro x hx
      simpa using (List.mem_filter.mp hx).2
    intro x hx
    rcases List.mem_map.mp hx with ⟨y, _, rfl⟩
    by_cases hy : y < 0
    · simp only [if_pos hy]; linarith
    · simp only [if_neg hy]; linarith

theorem mutateRefAux_map_pitch (nS : ℕ → ℚ) (i : ℕ) (l : List MidiRow) (d : List ℚ) :
    (mutateRefAux nS i l d).map MidiRow.pitch = l.map MidiRow.pitch := by
  induction l generalizing i d with
  | nil => rfl
  | cons r rs ih => simp [mutateRefAux, ih]

theorem mutateRefAux_map_velocity (nS : ℕ → ℚ) (i : ℕ) (l : List MidiRow) (d : List ℚ) :
    (mutateRefAux nS i l d).map MidiRow.velocity = l.map MidiRow.velocity := by
  induction l generalizing i d with
  | nil => rfl
  | cons r rs ih => simp [mutateRefAux, ih]

theorem mutateRefAux_map_end (nS : ℕ → ℚ) (i : ℕ) (l : List MidiRow) (d : List ℚ) :
    (mutateRefAux nS i l d).map MidiRow.end_ = l.map MidiRow.end_ := by
  induction l generalizing i d with
  | nil => rfl
  | cons r rs ih => simp [mutateRefAux, ih]

theorem mutateRefAux_map_program (nS : ℕ → ℚ) (i : ℕ) (l : List MidiRow) (d : List ℚ) :
    (mutateRefAux nS i l d).map MidiRow.program = l.map MidiRow.program := by
  induction l generalizing i d with
  | nil => rfl
  | cons r rs ih => simp [mutateRefAux, ih]

theorem mutateRefAux_map_start (nS : ℕ → ℚ) (i : ℕ) (l : List MidiRow) (d : List ℚ) :
    (mutateRefAux nS i l d).map MidiRow.start = addIdx nS i (l.map MidiRow.start) := by
  induction l generalizing i d with
  | nil => rfl
  | cons r rs ih => simp [mutateRefAux, addIdx, ih]

theorem mutateRefAux_map_duration (nS : ℕ → ℚ) (i : ℕ) (l : List MidiRow) (d : List ℚ)
    (hlen : d.length = l.length) : (mutateRefAux nS i l d).map MidiRow.duration = d := by
  induction l generalizing i d with
  | nil =>
    cases d with
    | nil => rfl
    | cons x xs => simp at hlen
  | cons r rs ih =>
    cases d with
    | nil => simp at hlen
    | cons x xs =>
      simp only [mutateRefAux, List.map_cons, List.headD_cons, List.tail_cons]
      rw [ih (i + 1) xs (by simpa using hlen)]

/-! ## C3 — `__generate` mutates the reference table -/

/-- C3 counterexample: one `__generate` call with jitter draw `1` on the start
column hands back the stored reference table with `start = 1` instead of the
original `start = 0` — the in-place `start_arr += np.random.normal(...)`
writes through the numpy view into the caller's data frame, so generation is
not side-effect free. -/
theorem generate_changes_reference_table :
    (generate midiC3 (fun _ => 1) (fun _ => 0) zRow pConst 8).map Prod.snd =
      some midiC3out ∧ midiC3out ≠ midiC3 := ⟨by decide!, by decide⟩

/-- C3 (amended): one `__generate` call leaves the reference table's pitch,
velocity, end and program columns unchanged, but overwrites its start column
with the jittered starts and its duration column with the clamped jittered
durations — so consecutive calls draw jitter from already-jittered values,
not from identical reference values. -/
theorem generate_mutates_reference (midi : List MidiRow) (nS nD vf : ℕ → ℚ)
    (pf : ℤ → ℕ → ℤ) (oct : ℤ) (cand : List GenRow) (midi2 : List MidiRow)
    (hok : generate midi nS nD vf pf oct = some (cand, midi2)) :
    midi2.map MidiRow.pitch = midi.map MidiRow.pitch ∧
    midi2.map MidiRow.velocity = midi.map MidiRow.velocity ∧
    midi2.map MidiRow.end_ = midi.map MidiRow.end_ ∧
    midi2.map MidiRow.program = midi.map MidiRow.program ∧
    midi2.map MidiRow.start = jitter nS (midi.map MidiRow.start) ∧
    clampDurations (jitter nD (midi.map MidiRow.duration)) =
      some (midi2.map MidiRow.duration) := by
  simp only [generate] at hok
  cases hclamp : clampDurations (jitter nD (midi.map MidiRow.duration)) with
  | none => rw [hclamp] at hok; cases hok
  | some durArr2 =>
    rw [hclamp] at hok
    simp only [Option.some.injEq, Prod.mk.injEq] at hok
    obtain ⟨h1, h2⟩ := hok
    subst h2
    have hlen : durArr2.length = midi.length := by
      rw [clampDurations_length _ _ hclamp]
      unfold jitter
      rw [addIdx_length, List.length_map]
    unfold mutateRef jitter
    exact ⟨mutateRefAux_map_pitch nS 0 midi durArr2, mutateRefAux_map_velocity nS 0 midi durArr2,
      mutateRefAux_map_end nS 0 midi durArr2, mutateRefAux_map_program nS 0 midi durArr2,
      mutateRefAux_map_start nS 0 midi durArr2, by
        rw [mutateRefAux_map_duration nS 0 midi durArr2 hlen]⟩

/-- C3 witness: the amended mutation statement at the concrete one-row table. -/
theorem generate_mutates_reference_witness :
    midiC3out.map MidiRow.pitch = midiC3.map MidiRow.pitch ∧
    midiC3out.map MidiRow.velocity = midiC3.map MidiRow.velocity ∧
    midiC3out.map MidiRow.end_ = midiC3.map MidiRow.end_ ∧
    midiC3out.map MidiRow.program = midiC3.map MidiRow.program ∧
    midiC3out.map MidiRow.start = jitter (fun _ => 1) (midiC3.map MidiRow.start) ∧
    clampDurations (jitter (fun _ => 0) (midiC3.map MidiRow.duration)) =
      some (midiC3out.map MidiRow.duration) :=
  generate_mutates_reference midiC3 (fun _ => 1) (fun _ => 0) zRow pConst 8 candC3 midiC3out
    (by decide!)

/-! ## C4 — duration clamping -/

theorem mem_insertSorted (a x : GenRow) (l : List GenRow) :
    x ∈ insertSorted a l ↔ x = a ∨ x ∈ l := by
  induction l with
  | nil => simp [insertSorted]
  | cons b t ih =>
    unfold insertSorted
    by_cases h : genKeyLe a b
    · rw [if_pos h]
      simp [List.mem_cons]
    · rw [if_neg h]
      simp only [List.mem_cons, ih]
      tauto

theorem mem_sortRows (x : GenRow) (l : List GenRow) : x ∈ sortRows l ↔ x ∈ l := by
  induction l with
  | nil => simp [sortRows]
  | cons a t ih =>
    simp only [sortRows, mem_insertSorted, ih, List.mem_cons]

theorem buildRows_duration_mem (p : List ℤ) (s d : List ℚ) (v : List ℤ) :
    ∀ r ∈ buildRows p s d v, r.duration ∈ d := by
  induction p generalizing s d v with
  | nil => intro r hr; simp [buildRows] at hr
  | cons a ps ih =>
    cases s with
    | nil => intro r hr; simp [buildRows] at hr
    | cons x ss =>
      cases d with
      | nil => intro r hr; simp [buildRows] at hr
      | cons y ds =>
        cases v with
        | nil => intro r hr; simp [buildRows] at hr
        | cons b vs =>
          intro r hr
          rcases List.mem_cons.mp hr with h | h
          · subst h; exact List.mem_cons_self y ds
          · exact List.mem_cons_of_mem y (ih ss ds vs r h)

/-- C4 counterexample: jitter that sends the first duration to exactly `0`.
The mask `duration_arr < 0` does not cover `0`, so the zero duration is kept
instead of being replaced by the minimum positive duration `2` — the
candidate's duration column is `[0, 2]`, not the `[2, 2]` the claim demands,
and its first duration is not strictly positive. -/
theorem generate_keeps_zero_duration :
    (generate midiC4 zRow nDC4 zRow pConst 8).map (fun r => r.1.map GenRow.duration) =
      some [0, 2] ∧
    (generate midiC4 zRow nDC4 zRow pConst 8).map (fun r => r.1.map GenRow.duration) ≠
      some [2, 2] := ⟨by decide!, by decide!⟩

/-- C4 (amended): only strictly negative jittered durations are replaced by
the minimum positive jittered duration, so every duration of every generated
candidate is nonnegative (zero durations can survive). -/
theorem generate_durations_nonneg (midi : List MidiRow) (nS nD vf : ℕ → ℚ)
    (pf : ℤ → ℕ → ℤ) (oct : ℤ) (cand : List GenRow) (midi2 : List MidiRow)
    (hok : generate midi nS nD vf pf oct = some (cand, midi2)) :
    ∀ r ∈ cand, 0 ≤ r.duration := by
  simp only [generate] at hok
  cases hclamp : clampDurations (jitter nD (midi.map MidiRow.duration)) with
  | none => rw [hclamp] at hok; cases hok
  | some durArr2 =>
    rw [hclamp] at hok
    simp only [Option.some.injEq, Prod.mk.injEq] at hok
    obtain ⟨h1, h2⟩ := hok
    subst h1
    intro r hr
    rw [mem_sortRows] at hr
    rcases List.mem_map.mp hr with ⟨r2, hr2, rfl⟩
    rcases List.mem_map.mp hr2 with ⟨r1, hr1, rfl⟩
    rcases List.mem_map.mp hr1 with ⟨r0, hr0, rfl⟩
    have hd := buildRows_duration_mem _ _ _ _ r0 hr0
    exact clampDurations_nonneg _ _ hclamp _ hd

/-- C4 witness: nonnegativity of both candidate durations at a concrete
two-row table with all-zero oracles, through `generate_durations_nonneg`. -/
theorem generate_durations_nonneg_witness :
    0 ≤ (candC4.getD 0 ⟨0, 0, 0, 0, 0, 0⟩).duration ∧
    0 ≤ (candC4.getD 1 ⟨0, 0, 0, 0, 0, 0⟩).duration :=
  ⟨generate_durations_nonneg midiC4 zRow zRow zRow pConst 8 candC4 midiC4 (by decide!)
      (candC4.getD 0 ⟨0, 0, 0, 0, 0, 0⟩) (by decide),
    generate_durations_nonneg midiC4 zRow zRow zRow pConst 8 candC4 midiC4 (by decide!)
      (candC4.getD 1 ⟨0, 0, 0, 0, 0, 0⟩) (by decide)⟩

/-! ## C5 — preprocessor shape and value range -/

theorem normalizeTable_length (rows : List Row) :
    (normalizeTable rows).length = rows.length := by
  simp [normalizeTable]

theorem normalizeTable_mem (rows : List Row) (r : Row) (hr : r ∈ normalizeTable rows) :
    ∃ r0 ∈ rows,
      r = ⟨scale01 (qmin (rows.map Row.pitch)) (qmax (rows.map Row.pitch)) r0.pitch,
        scale01 (qmin (rows.map Row.start)) (qmax (rows.map Row.start)) r0.start,
        scale01 (qmin (rows.map Row.end_)) (qmax (rows.map Row.end_)) r0.end_,
        scale01 (qmin (rows.map Row.duration)) (qmax (rows.map Row.duration)) r0.duration,
        scale01 (qmin (rows.map Row.velocity)) (qmax (rows.map Row.velocity)) r0.velocity⟩ := by
  simp only [normalizeTable] at hr
  rcases List.mem_map.mp hr with ⟨r0, hr0, rfl⟩
  exact ⟨r0, hr0, rfl⟩

theorem colNonConst_scale01_bounds (l : List ℚ) (x : ℚ) (hx : x ∈ l) (hc : colNonConst l) :
    0 ≤ scale01 (qmin l) (qmax l) x ∧ scale01 (qmin l) (qmax l) x ≤ 1 := by
  obtain ⟨a, ha, b, hb, hab⟩ := hc
  exact scale01_bounds l x a b hx ha hb hab

/-- C5: on a table whose usable row count exceeds the window length and whose
four feature columns are non-constant, `__preprocess` succeeds with
`rows − cycle_len` windows of length `cycle_len`, every feature value lies in
`[0, 1]`, and window `k` holds the normalized rows `k .. k + cycle_len - 1`. -/
theorem preprocess_shape_and_range (raw : List RawRow) (L : ℕ)
    (hlen : L < (dropna raw).length)
    (hpc : colNonConst ((dropna raw).map Row.pitch))
    (hsc : colNonConst ((dropna raw).map Row.start))
    (hdc : colNonConst ((dropna raw).map Row.duration))
    (hvc : colNonConst ((dropna raw).map Row.velocity)) :
    ∃ out, preprocess raw L = some out ∧
      out.length = (dropna raw).length - L ∧
      (∀ w ∈ out, w.length = L ∧ ∀ f ∈ w,
        (0 ≤ f.1 ∧ f.1 ≤ 1) ∧ (0 ≤ f.2.1 ∧ f.2.1 ≤ 1) ∧
        (0 ≤ f.2.2.1 ∧ f.2.2.1 ≤ 1) ∧ (0 ≤ f.2.2.2 ∧ f.2.2.2 ≤ 1)) ∧
      (∀ k, k < (dropna raw).length - L →
        out.getD k [] = (((normalizeTable (dropna raw)).drop k).take L).map features) := by
  have hnlen : (normalizeTable (dropna raw)).length = (dropna raw).length :=
    normalizeTable_length _
  have hcond : ¬ ((normalizeTable (dropna raw)).length < L) := by omega
  refine ⟨(List.range ((normalizeTable (dropna raw)).length - L)).map
      (fun k => (((normalizeTable (dropna raw)).drop k).take L).map features), ?_, ?_, ?_, ?_⟩
  · simp only [preprocess]
    rw [if_neg hcond]
  · simp [hnlen]
  · intro w hw
    rcases List.mem_map.mp hw with ⟨k, hk, rfl⟩
    rw [List.mem_range] at hk
    constructor
    · simp only [List.length_map, List.length_take, List.length_drop]
      omega
    · intro f hf
      rcases List.mem_map.mp hf with ⟨r, hr, rfl⟩
      have hrnorm : r ∈ normalizeTable (dropna raw) :=
        List.mem_of_mem_drop (List.mem_of_mem_take hr)
      obtain ⟨r0, hr0, rfl⟩ := normalizeTable_mem _ _ hrnorm
      refine ⟨?_, ?_, ?_, ?_⟩
      · exact colNonConst_scale01_bounds _ _ (List.mem_map_of_mem Row.pitch hr0) hpc
      · exact colNonConst_scale01_bounds _ _ (List.mem_map_of_mem Row.start hr0) hsc
      · exact colNonConst_scale01_bounds _ _ (List.mem_map_of_mem Row.duration hr0) hdc
      · exact colNonConst_scale01_bounds _ _ (List.mem_map_of_mem Row.velocity hr0) hvc
  · intro k hk
    rw [List.getD_eq_getElem _ _ (by simpa [hnlen] using hk)]
    rw [List.getElem_map]
    rw [List.getElem_range]

/-- C5 witness: the shape/range statement at a concrete two-row table with
window length 1. -/
theorem preprocess_shape_and_range_witness :
    ∃ out, preprocess rawC5 1 = some out ∧
      out.length = (dropna rawC5).length - 1 ∧
      (∀ w ∈ out, w.length = 1 ∧ ∀ f ∈ w,
        (0 ≤ f.1 ∧ f.1 ≤ 1) ∧ (0 ≤ f.2.1 ∧ f.2.1 ≤ 1) ∧
        (0 ≤ f.2.2.1 ∧ f.2.2.1 ≤ 1) ∧ (0 ≤ f.2.2.2 ∧ f.2.2.2 ≤ 1)) ∧
      (∀ k, k < (dropna rawC5).length - 1 →
        out.getD k [] = (((normalizeTable (dropna rawC5)).drop k).take 1).map features) :=
  preprocess_shape_and_range rawC5 1 (by decide) (by decide) (by decide) (by decide) (by decide)

/-! ## C1 — compose selects the first record with globally minimal score -/

/-- C1: a `compose` call in the trained state returns the pitch-swapped
candidate designated by column 4 of the first predicted-log record (lowest
record index, i.e. lowest cycle index when the log is in cycle order) whose
column-5 score equals the global minimum; every earlier record has a strictly
greater score. -/
theorem compose_selects_global_min (m : RBMAnnealing) (art : Learned)
    (noiseSf noiseDf velff : ℕ → ℕ → ℚ) (pitchf : ℤ → ℕ → ℤ)
    (annealLog : List (List ℚ)) (octave : ℤ) (out : List OptRow)
    (hlearn : m.learned = some art)
    (hok : m.compose noiseSf noiseDf velff pitchf annealLog octave = Except.ok out) :
    ∃ midiF cands j opt,
      composeLoop art.observed0 m.cfg.cycle_len noiseSf noiseDf velff pitchf octave
          (List.range m.cfg.annealing_cycles) art.midi = Except.ok (midiF, cands) ∧
      j < annealLog.length ∧
      recScore (annealLog.getD j []) = minScore annealLog ∧
      (∀ k, k < j → minScore annealLog < recScore (annealLog.getD k [])) ∧
      pyListGet cands (pyInt (recIndex (annealLog.getD j []))) = some opt ∧
      out = pitchSwap opt := by
  simp only [RBMAnnealing.compose, hlearn] at hok
  cases hloop : composeLoop art.observed0 m.cfg.cycle_len noiseSf noiseDf velff pitchf octave
      (List.range m.cfg.annealing_cycles) art.midi with
  | error e => rw [hloop] at hok; cases hok
  | ok p =>
    obtain ⟨midiF, cands⟩ := p
    rw [hloop] at hok
    simp only [selectOptimum] at hok
    cases hhead : (annealLog.filter fun r => decide (recScore r = minScore annealLog)).head? with
    | none => rw [hhead] at hok; cases hok
    | some r =>
      rw [hhead] at hok
      cases hget : pyListGet cands (pyInt (recIndex r)) with
      | none => simp only [hget] at hok; cases hok
      | some opt =>
        simp only [hget, Except.ok.injEq] at hok
        have hout := hok
        obtain ⟨j, hj, hgetd, hpr, hbefore⟩ :=
          head?_filter_spec (fun r => decide (recScore r = minScore annealLog)) [] annealLog
            r hhead
        refine ⟨midiF, cands, j, opt, rfl, hj, ?_, ?_, ?_, hout.symm⟩
        · rw [hgetd]
          exact of_decide_eq_true hpr
        · intro k hk
          have hne : ¬ (recScore (annealLog.getD k []) = minScore annealLog) := by
            have hfalse := hbefore k hk
            simpa using hfalse
          have hmem : recScore (annealLog.getD k []) ∈ annealLog.map recScore :=
            List.mem_map_of_mem recScore (getD_mem annealLog [] k (by omega))
          have hle : qmin (annealLog.map recScore) ≤ recScore (annealLog.getD k []) :=
            qmin_le _ _ hmem
          exact lt_of_le_of_ne hle fun heq => hne heq.symm
        · rw [hgetd]
          exact hget

/-- C1 witness: a trained composer with one annealing cycle and a two-record
log whose minimum score 2 sits in the first record, applied through
`compose_selects_global_min`. -/
theorem compose_selects_global_min_witness :
    ∃ midiF cands j opt,
      composeLoop artC1.observed0 mC1.cfg.cycle_len zCycle zCycle zCycle pConst 8
          (List.range mC1.cfg.annealing_cycles) artC1.midi = Except.ok (midiF, cands) ∧
      j < logC1.length ∧
      recScore (logC1.getD j []) = minScore logC1 ∧
      (∀ k, k < j → minScore logC1 < recScore (logC1.getD k [])) ∧
      pyListGet cands (pyInt (recIndex (logC1.getD j []))) = some opt ∧
      outC1 = pitchSwap opt :=
  compose_selects_global_min mC1 artC1 zCycle zCycle zCycle pConst logC1 8 outC1 rfl
    (by decide!)

/-! ## Bit-setting lemmas for the bar sampler -/

theorem getD_set_self (l : List ℚ) (i : ℕ) (hi : i < l.length) (v : ℚ) :
    (l.set i v).getD i 0 = v := by
  rw [List.getD_eq_getElem _ _ (by simpa using hi)]
  exact List.getElem_set_self _

theorem getD_set_other (l : List ℚ) (i j : ℕ) (hij : i ≠ j) (hj : j < l.length) (v : ℚ) :
    (l.set i v).getD j 0 = l.getD j 0 := by
  rw [List.getD_eq_getElem _ _ (by simpa using hj), List.getD_eq_getElem _ _ hj]
  exact List.getElem_set_ne hij _

theorem getD_replicate_zero (d j : ℕ) (hj : j < d) :
    (List.replicate d (0 : ℚ)).getD j 0 = 0 := by
  rw [List.getD_eq_getElem _ _ (by simpa using hj)]
  exact List.getElem_replicate 0 _

theorem npSet_is_set (arr : List ℚ) (idx : ℤ) (v : ℚ) (arr2 : List ℚ)
    (h : npSet arr idx v = some arr2) : ∃ k, arr2 = arr.set k v := by
  unfold npSet at h
  split_ifs at h with h1 h2 h3
  · injection h with h
    exact ⟨(idx + arr.length).toNat, h.symm⟩
  · injection h with h
    exact ⟨idx.toNat, h.symm⟩

theorem setBits_binary (minP maxP : ℤ) (notes : List BarNote) (arr arr2 : List ℚ)
    (h : setBits minP maxP notes arr = some arr2) (hb : ∀ x ∈ arr, x = 0 ∨ x = 1) :
    arr2.length = arr.length ∧ ∀ x ∈ arr2, x = 0 ∨ x = 1 := by
  induction notes generalizing arr with
  | nil =>
    simp only [setBits] at h
    injection h with h
    subst h
    exact ⟨rfl, hb⟩
  | cons n ns ih =>
    simp only [setBits] at h
    by_cases hguard : n.pitch < maxP - 1
    · rw [if_pos hguard] at h
      cases hset : npSet arr (n.pitch - minP) 1 with
      | none => rw [hset] at h; cases h
      | some arr1 =>
        rw [hset] at h
        obtain ⟨k, rfl⟩ := npSet_is_set arr _ _ arr1 hset
        have hb1 : ∀ x ∈ arr.set k 1, x = 0 ∨ x = 1 := by
          intro x hx
          rcases List.mem_or_eq_of_mem_set hx with hx2 | hx2
          · exact hb x hx2
          · exact Or.inr hx2
        obtain ⟨hl, hbb⟩ := ih (arr.set k 1) h hb1
        exact ⟨by rw [hl]; simp, hbb⟩
    · rw [if_neg hguard] at h
      exact ih arr h hb

theorem setBits_spec (minP maxP : ℤ) (notes : List BarNote) (arr arr2 : List ℚ)
    (h : setBits minP maxP notes arr = some arr2)
    (hp : ∀ n ∈ notes, minP ≤ n.pitch) :
    arr2.length = arr.length ∧
    ∀ j, j < arr.length →
      (arr2.getD j 0 = 1 ↔ (arr.getD j 0 = 1 ∨
        ∃ n ∈ notes, n.pitch < maxP - 1 ∧ (j : ℤ) = n.pitch - minP)) := by
  induction notes generalizing arr with
  | nil =>
    simp only [setBits] at h
    injection h with h
    subst h
    refine ⟨rfl, fun j hj => ?_⟩
    simp
  | cons n ns ih =>
    simp only [setBits] at h
    by_cases hguard : n.pitch < maxP - 1
    · rw [if_pos hguard] at h
      cases hset : npSet arr (n.pitch - minP) 1 with
      | none => rw [hset] at h; cases h
      | some arr1 =>
        rw [hset] at h
        have hple : minP ≤ n.pitch := hp n (List.mem_cons_self n ns)
        have hidx0 : 0 ≤ n.pitch - minP := by omega
        unfold npSet at hset
        rw [if_neg (by omega), if_neg (by omega)] at hset
        by_cases hlt : n.pitch - minP < (arr.length : ℤ)
        · rw [if_pos hlt] at hset
          injection hset with he
          obtain ⟨hl, hiff⟩ := ih arr1 h fun x hx => hp x (List.mem_cons_of_mem n hx)
          subst he
          have hkz : ((n.pitch - minP).toNat : ℤ) = n.pitch - minP := Int.toNat_of_nonneg hidx0
          have hknat : (n.pitch - minP).toNat < arr.length := by omega
          refine ⟨by rw [hl]; simp, fun j hj => ?_⟩
          have hiff2 := hiff j (by simpa using hj)
          rw [hiff2]
          by_cases hjk : j = (n.pitch - minP).toNat
          · subst hjk
            rw [getD_set_self arr _ hknat 1]
            constructor
            · intro _
              exact Or.inr ⟨n, List.mem_cons_self n ns, hguard, hkz⟩
            · intro _
              exact Or.inl rfl
          · rw [getD_set_other arr _ j (fun he2 => hjk he2.symm) hj 1]
            constructor
            · rintro (h2 | ⟨x, hx, hpx, hjx⟩)
              · exact Or.inl h2
              · exact Or.inr ⟨x, List.mem_cons_of_mem n hx, hpx, hjx⟩
            · rintro (h2 | ⟨x, hx, hpx, hjx⟩)
              · exact Or.inl h2
              · rcases List.mem_cons.mp hx with rfl | hx2
                · exact absurd (by omega : j = (x.pitch - minP).toNat) hjk
                · exact Or.inr ⟨x, hx2, hpx, hjx⟩
        · rw [if_neg hlt] at hset
          cases hset
    · rw [if_neg hguard] at h
      obtain ⟨hl, hiff⟩ := ih arr h fun x hx => hp x (List.mem_cons_of_mem n hx)
      refine ⟨hl, fun j hj => ?_⟩
      rw [hiff j hj]
      constructor
      · rintro (h2 | ⟨x, hx, hpx, hjx⟩)
        · exact Or.inl h2
        · exact Or.inr ⟨x, List.mem_cons_of_mem n hx, hpx, hjx⟩
      · rintro (h2 | ⟨x, hx, hpx, hjx⟩)
        · exact Or.inl h2
        · rcases List.mem_cons.mp hx with rfl | hx2
          · exact absurd hpx hguard
          · exact Or.inr ⟨x, hx2, hpx, hjx⟩

/-! ## C9 — sampler output shape, binariness and channel count -/

theorem channel_eq_card (s : BarNoiseSampler) :
    s.channel = ((s.tables.map fun t => t.map BarNote.program).flatten).toFinset.card := by
  unfold BarNoiseSampler.channel BarNoiseSampler.programList
  calc ((s.tables.map fun t => (t.map BarNote.program).dedup).flatten).dedup.length
      = ((s.tables.map fun t => (t.map BarNote.program).dedup).flatten).toFinset.card :=
        (List.card_toFinset _).symm
    _ = ((s.tables.map fun t => t.map BarNote.program).flatten).toFinset.card := by
        congr 1
        ext x
        simp only [List.mem_toFinset, List.mem_flatten, List.mem_map]
        constructor
        · rintro ⟨l, ⟨t, ht, rfl⟩, hx⟩
          exact ⟨t.map BarNote.program, ⟨t, ht, rfl⟩, List.mem_dedup.mp hx⟩
        · rintro ⟨l, ⟨t, ht, rfl⟩, hx⟩
          exact ⟨(t.map BarNote.program).dedup, ⟨t, ht, rfl⟩, List.mem_dedup.mpr hx⟩

/-- C9: a successful `generate()` returns a `(batch_size, channel, seq_len,
dim)` tensor of zeros and ones, where `channel` is the number of distinct
`program` values across all input tables — a quantity fixed at construction
time, hence identical across repeated `generate()` calls. -/
theorem bar_generate_shape_and_binary (s : BarNoiseSampler) (keyf : ℕ → ℕ → ℕ)
    (rowf : ℕ → ℕ → ℚ) (out : List (List (List (List ℚ))))
    (hout : s.generate keyf rowf = some out) :
    out.length = s.batch_size ∧
    (∀ ch ∈ out, ch.length = s.channel ∧
      ∀ sq ∈ ch, sq.length = s.seq_len ∧
        ∀ v ∈ sq, v.length = s.dim ∧ ∀ x ∈ v, x = 0 ∨ x = 1) ∧
    s.channel = ((s.tables.map fun t => t.map BarNote.program).flatten).toFinset.card := by
  unfold BarNoiseSampler.generate at hout
  refine ⟨by rw [optMap_length _ _ _ hout, List.length_range], ?_, channel_eq_card s⟩
  intro ch hch
  obtain ⟨b, _, hchb⟩ := optMap_mem _ _ _ hout ch hch
  unfold genBatch at hchb
  refine ⟨by rw [optMap_length _ _ _ hchb, List.length_range]; rfl, ?_⟩
  intro sq hsq
  obtain ⟨i, _, hsqi⟩ := optMap_mem _ _ _ hchb sq hsq
  unfold genChannel at hsqi
  by_cases hshort : (selTable s keyf b i).length < s.seq_len
  · rw [if_pos hshort] at hsqi
    injection hsqi with he
    subst he
    refine ⟨by simp, ?_⟩
    intro v hv
    have hv2 := List.eq_of_mem_replicate hv
    subst hv2
    exact ⟨by simp, fun x hx => Or.inl (List.eq_of_mem_replicate hx)⟩
  · rw [if_neg hshort] at hsqi
    refine ⟨by rw [optMap_length _ _ _ hsqi, List.length_range], ?_⟩
    intro v hv
    obtain ⟨seq, _, hvs⟩ := optMap_mem _ _ _ hsqi v hv
    unfold genSeqSlot convertIntoFeature at hvs
    obtain ⟨hlen2, hbin⟩ := setBits_binary _ _ _ _ _ hvs
      fun x hx => Or.inl (List.eq_of_mem_replicate hx)
    exact ⟨by rw [hlen2]; simp, hbin⟩

/-- C9 witness: the shape/binariness statement at a concrete one-note,
one-batch sampler with `dim = 3`, applied through
`bar_generate_shape_and_binary`. -/
theorem bar_generate_shape_and_binary_witness :
    ((sC9.generate kfC2 rfC2).getD []).length = sC9.batch_size ∧
    (∀ ch ∈ (sC9.generate kfC2 rfC2).getD [], ch.length = sC9.channel ∧
      ∀ sq ∈ ch, sq.length = sC9.seq_len ∧
        ∀ v ∈ sq, v.length = sC9.dim ∧ ∀ x ∈ v, x = 0 ∨ x = 1) ∧
    sC9.channel = ((sC9.tables.map fun t => t.map BarNote.program).flatten).toFinset.card :=
  bar_generate_shape_and_binary sC9 kfC2 rfC2 _ (by decide!)

/-! ## C2 — which notes set bits in a bar slot -/

/-- C2 counterexample: with the bar `[5, 5.1)` inside the note `[0, 10)`, no
note is fully inside the sub-interval — the claim therefore demands an
all-zero slot — yet the code sets the bit `30 - 24 = 6`, because its filter
`start < 5 ∧ end > 5.1` selects notes that contain the sub-interval, not
notes contained in it. -/
theorem bar_generate_not_inside_note_sets_bit :
    ((selTable sC2 kfC2 0 0).filter fun n =>
      decide (5 ≤ n.start) && decide (n.end_ ≤ 5 + (1 : ℚ) / 10)) = [] ∧
    (((((sC2.generate kfC2 rfC2).getD []).getD 0 []).getD 0 []).getD 0 []).getD 6 0 = 1 := by
  exact ⟨by decide, by decide!⟩

/-- C2 (amended): in a sampled channel (one whose selected per-program table
has at least `seq_len` rows, all pitches at least `min_pitch`), the bits set
in slot `seq` are exactly those of the notes whose interval strictly contains
the closed sub-interval — `start` strictly before `row + seq*time_fraction`
and `end` strictly after `row + (seq+1)*time_fraction` — and whose pitch is
strictly below `max_pitch - 1`, the bit sitting at `pitch - min_pitch`. -/
theorem bar_generate_bits_iff (s : BarNoiseSampler) (keyf : ℕ → ℕ → ℕ) (rowf : ℕ → ℕ → ℚ)
    (out : List (List (List (List ℚ)))) (hout : s.generate keyf rowf = some out)
    (hpitch : ∀ t ∈ s.tables, ∀ n ∈ t, s.min_pitch ≤ n.pitch)
    (b i seq j : ℕ) (hb : b < s.batch_size) (hi : i < s.programList.length)
    (hseq : seq < s.seq_len) (hlen : s.seq_len ≤ (selTable s keyf b i).length)
    (hj : j < s.dim) :
    ((((out.getD b []).getD i []).getD seq []).getD j 0 = 1 ↔
      ∃ n ∈ selTable s keyf b i,
        n.start < rowf b i + (seq : ℚ) * s.time_fraction ∧
        n.end_ > rowf b i + ((seq : ℚ) + 1) * s.time_fraction ∧
        n.pitch < s.max_pitch - 1 ∧ (j : ℤ) = n.pitch - s.min_pitch) := by
  unfold BarNoiseSampler.generate at hout
  have hB := optMap_getD _ _ _ hout 0 [] b (by simpa using hb)
  rw [range_getD _ _ _ hb] at hB
  unfold genBatch at hB
  have hC := optMap_getD _ _ _ hB 0 [] i (by simpa using hi)
  rw [range_getD _ _ _ hi] at hC
  unfold genChannel at hC
  rw [if_neg (not_lt.mpr hlen)] at hC
  have hS := optMap_getD _ _ _ hC 0 [] seq (by simpa using hseq)
  rw [range_getD _ _ _ hseq] at hS
  unfold genSeqSlot convertIntoFeature at hS
  have hsub : ∀ x ∈ ((selTable s keyf b i).filter fun n =>
        decide (n.start < rowf b i + (seq : ℚ) * s.time_fraction)).filter
      (fun n => decide (n.end_ > rowf b i + ((seq : ℚ) + 1) * s.time_fraction)),
      s.min_pitch ≤ x.pitch := by
    intro x hx
    have hx1 : x ∈ selTable s keyf b i := (List.mem_filter.mp (List.mem_filter.mp hx).1).1
    have hx2 : x ∈ s.tables.getD (keyf b i) [] := (List.mem_filter.mp hx1).1
    by_cases hkey : keyf b i < s.tables.length
    · exact hpitch _ (getD_mem s.tables [] (keyf b i) hkey) x hx2
    · rw [List.getD_eq_getElem?_getD, List.getElem?_eq_none (by omega)] at hx2
      cases hx2
  obtain ⟨hlen2, hiff⟩ := setBits_spec _ _ _ _ _ hS hsub
  have hiffj := hiff j (by simpa using hj)
  rw [getD_replicate_zero s.dim j hj] at hiffj
  rw [hiffj, or_iff_right (by norm_num : ¬ ((0 : ℚ) = 1))]
  constructor
  · rintro ⟨x, hx, hpx, hjx⟩
    have hx1m := List.mem_filter.mp hx
    have hx2m := List.mem_filter.mp hx1m.1
    exact ⟨x, hx2m.1, of_decide_eq_true hx2m.2, of_decide_eq_true hx1m.2, hpx, hjx⟩
  · rintro ⟨x, hx, hs1, hs2, hpx, hjx⟩
    exact ⟨x, List.mem_filter.mpr
      ⟨List.mem_filter.mpr ⟨hx, decide_eq_true hs1⟩, decide_eq_true hs2⟩, hpx, hjx⟩

/-- C2 witness: the amended bit characterization at the concrete sampler,
batch 0, channel 0, slot 0, bit 6 (which is set, by the note `[0, 10)` of
pitch 30 strictly containing the bar `[5, 5.1)`). -/
theorem bar_generate_bits_iff_witness :
    (((((sC2.generate kfC2 rfC2).getD []).getD 0 []).getD 0 []).getD 0 []).getD 6 0 = 1 ↔
      ∃ n ∈ selTable sC2 kfC2 0 0,
        n.start < rfC2 0 0 + ((0 : ℕ) : ℚ) * sC2.time_fraction ∧
        n.end_ > rfC2 0 0 + (((0 : ℕ) : ℚ) + 1) * sC2.time_fraction ∧
        n.pitch < sC2.max_pitch - 1 ∧ ((6 : ℕ) : ℤ) = n.pitch - sC2.min_pitch :=
  bar_generate_bits_iff sC2 kfC2 rfC2 _ (by decide!) (by decide) 0 0 0 6 (by decide) (by decide)
    (by decide) (by decide) (by decide)

end AccelBrain
